import Mathlib

set_option maxHeartbeats 1000000
set_option maxRecDepth 4000
set_option linter.unusedVariables false

/-!
Shallow embedding of the two source files of this repository:
`src/storage/table/version_manager.cpp` and
`src/execution/expression_executor.cpp` (duckdb).

Machine integers (`index_t`, `row_t`, `transaction_t`) are modelled as `Nat`;
the claims only concern in-range inputs (row ids at or above `base_row`,
counts far below 2^64), and theorems carry the corresponding hypotheses
where unsigned subtraction occurs in the source.  Each `VersionManager`
entry point returns, besides its result, the list of locks it acquires on
the manager's reader/writer lock, in source order.
-/

namespace duckdb

/-- STANDARD_VECTOR_SIZE from duckdb: the number of rows per block/vector. -/
def STANDARD_VECTOR_SIZE : Nat := 1024

/-- Transactions are opaque to the two source files; only their identity and
their undo-log sink (PushDelete, modelled as a returned trace) matter. -/
abbrev Transaction := Nat

/-- Lock acquisitions on VersionManager::lock, recorded in source order by
each entry point. -/
inductive LockMode where
  | shared
  | exclusive
deriving DecidableEq

/-- Modelled from the spec: ChunkDeleteInfo (chunk_info.cpp is not under
src/): the set of deleted row offsets of one block, plus the block's start
row (the constructor argument `chunk_idx * STANDARD_VECTOR_SIZE`). -/
structure ChunkDeleteInfo where
  start : Nat
  deleted : Nat → Bool

/-- Modelled from the spec: ChunkInsertInfo (chunk_info.cpp is not under
src/): a per-offset commit id stamped at insert time; it carries the
deletion history forward so that the delete-info to insert-info promotion
preserves prior delete semantics. -/
structure ChunkInsertInfo where
  start : Nat
  inserted : Nat → Nat
  deleted : Nat → Bool

/-- A version-map entry: either insert info or delete info (the
ChunkInfoType tag of the source). -/
inductive ChunkInfo where
  | ins (i : ChunkInsertInfo)
  | del (d : ChunkDeleteInfo)

/-- The type tag of a ChunkInfo (ChunkInfoType in the source). -/
inductive ChunkInfoKind where
  | ins
  | del
deriving DecidableEq

/-- Tag of an entry. -/
def ChunkInfo.kind : ChunkInfo → ChunkInfoKind
  | .ins _ => .ins
  | .del _ => .del

/-- Tag of an optional entry (absent blocks have no tag). -/
def kindOf : Option ChunkInfo → Option ChunkInfoKind
  | none => none
  | some ci => some ci.kind

/-- The sparse block-index to ChunkInfo map (`unordered_map` in the source),
modelled as a function; `none` is absence. -/
abbrev InfoMap := Nat → Option ChunkInfo

/-- `info[k] = v` on the map. -/
def mapInsert (m : InfoMap) (k : Nat) (v : ChunkInfo) : InfoMap :=
  fun b => if b = k then some v else m b

/-- `info.erase(k)` on the map. -/
def mapErase (m : InfoMap) (k : Nat) : InfoMap :=
  fun b => if b = k then none else m b

/-- Modelled from the spec: ChunkInfo::Delete (chunk_info.cpp is not under
src/) marks the given offsets deleted in the entry, preserving its type. -/
def ChunkInfo.deleteRows (ci : ChunkInfo) (offsets : List Nat) : ChunkInfo :=
  match ci with
  | .ins ii => .ins { ii with deleted := fun k => offsets.contains k || ii.deleted k }
  | .del d => .del { d with deleted := fun k => offsets.contains k || d.deleted k }

/-- VersionManager: base row, high-water mark, and the version map. -/
structure VersionManager where
  base_row : Nat
  max_row : Nat
  info : InfoMap

/-- One Transaction::PushDelete call: the affected offsets and the absolute
base row passed (`base_row + chunk_row`). -/
structure DeleteEntry where
  offsets : List Nat
  baseRow : Nat
deriving DecidableEq

/-- VersionManager::GetSelVector.  The with-entry branch delegates to
ChunkInfo::GetSelVector, which is not under src/; the delegate is a
parameter.  The out-buffer `sel_vector` is threaded functionally: the
returned function is the buffer after the call. -/
def VersionManager.GetSelVector (vm : VersionManager) (transaction : Transaction)
    (index : Nat) (sel_vector : Nat → Nat) (max_count : Nat)
    (chunkGetSelVector : ChunkInfo → Transaction → (Nat → Nat) → Nat → Nat × (Nat → Nat)) :
    List LockMode × (Nat × (Nat → Nat)) :=
  -- obtain a read lock
  ([LockMode.shared],
    match vm.info index with
    | none =>
      -- no info, use everything
      (max_count, sel_vector)
    | some entry =>
      -- get the selection vector from the chunk info
      chunkGetSelVector entry transaction sel_vector max_count)

/-- VersionManager::Fetch.  The with-entry branch delegates to
ChunkInfo::Fetch (not under src/), a parameter here.  Note the source
acquires no lock in this function. -/
def VersionManager.Fetch (vm : VersionManager) (transaction : Transaction) (row : Nat)
    (chunkFetch : ChunkInfo → Transaction → Nat → Bool) : List LockMode × Bool :=
  let r := row - vm.base_row
  let vector_index := r / STANDARD_VECTOR_SIZE
  ([],
    match vm.info vector_index with
    | none =>
      -- no info, use the row
      true
    | some entry =>
      -- there is an info: need to figure out if we want to use the row or not
      chunkFetch entry transaction (r - vector_index * STANDARD_VECTOR_SIZE))

/-- VersionDeleteState.  `rows` is the accumulation buffer (a
`row_t[STANDARD_VECTOR_SIZE]` array in the source, here the list of slots
written so far), `writeIdxs` is a ghost trace recording, for every write
`rows[count++] = ...` the source performs, the array index `count` it wrote
to.  `pushes` is the trace of Transaction::PushDelete calls. -/
structure DelState where
  manager_info : InfoMap
  current_chunk : Option Nat
  chunk_row : Nat
  rows : List Nat
  pushes : List DeleteEntry
  writeIdxs : List Nat
  base_row : Nat

/-- Flush's effect on the version map: `current_info->Delete(transaction,
rows, count)` mutates the entry the map owns at the current chunk. -/
def delFlushMap (m : InfoMap) (c : Nat) (offsets : List Nat) : InfoMap :=
  fun b => if b = c then (m c).map (fun ci => ci.deleteRows offsets) else m b

/-- VersionDeleteState::Flush. -/
def DelState.flush (s : DelState) : DelState :=
  if s.rows = [] then s
  else
    match s.current_chunk with
    | none => s
    | some c =>
      { s with
        -- delete in the current info (current_info points at the map's entry)
        manager_info := delFlushMap s.manager_info c s.rows,
        -- now push the delete into the undo buffer
        pushes := s.pushes ++ [{ offsets := s.rows, baseRow := s.base_row + s.chunk_row }],
        rows := [] }

/-- The block-change lookup of VersionDeleteState::Delete: create the
block's delete info lazily on first touch, else leave the map alone (the
existing entry is altered in place later, at flush time). -/
def delTouch (m : InfoMap) (chunk_idx : Nat) : InfoMap :=
  match m chunk_idx with
  | none =>
    -- no version info yet: have to create one
    mapInsert m chunk_idx
      (ChunkInfo.del { start := chunk_idx * STANDARD_VECTOR_SIZE, deleted := fun _ => false })
  | some _ =>
    -- version info already exists: alter existing version info
    m

/-- VersionDeleteState::Delete(row_id). -/
def DelState.deleteRow (s : DelState) (row_id : Nat) : DelState :=
  let chunk_idx := row_id / STANDARD_VECTOR_SIZE
  let idx_in_chunk := row_id - chunk_idx * STANDARD_VECTOR_SIZE
  -- check if we are targetting a different chunk than the current chunk
  let s1 :=
    if s.current_chunk = some chunk_idx then s
    else
      -- if we are, first flush the previous chunk
      let sf := s.flush
      { sf with
        -- then look up if the chunk already exists
        manager_info := delTouch sf.manager_info chunk_idx,
        current_chunk := some chunk_idx,
        chunk_row := chunk_idx * STANDARD_VECTOR_SIZE }
  -- now add the row to the set of to-be-deleted rows
  { s1 with
    rows := s1.rows ++ [idx_in_chunk],
    writeIdxs := s1.writeIdxs ++ [s1.rows.length] }

/-- The final VersionDeleteState of a VersionManager::Delete call:
VectorOperations::Exec applies the body to every row id in order, each id
lowered by `base_row`; a final flush follows. -/
def VersionManager.deleteFinalState (vm : VersionManager) (row_ids : List Nat) : DelState :=
  ((row_ids.map (fun id => id - vm.base_row)).foldl DelState.deleteRow
    { manager_info := vm.info, current_chunk := none, chunk_row := 0,
      rows := [], pushes := [], writeIdxs := [], base_row := vm.base_row }).flush

/-- VersionManager::Delete: exclusive lock, per-id processing, final flush.
Returns the locks taken, the new manager state and the PushDelete trace. -/
def VersionManager.Delete (vm : VersionManager) (transaction : Transaction)
    (row_ids : List Nat) : List LockMode × (VersionManager × List DeleteEntry) :=
  let sF := vm.deleteFinalState row_ids
  ([LockMode.exclusive], ({ vm with info := sF.manager_info }, sF.pushes))

/-- Modelled from the spec: the fresh-ChunkInsertInfo constructor
(chunk_info.cpp is not under src/): no stamps, no deletions. -/
def newInsertInfo (start : Nat) : ChunkInsertInfo :=
  { start := start, inserted := fun _ => 0, deleted := fun _ => false }

/-- Modelled from the spec: the promoting ChunkInsertInfo(ChunkDeleteInfo&)
constructor (chunk_info.cpp is not under src/): keeps the deletion history. -/
def ChunkInsertInfo.ofDelete (d : ChunkDeleteInfo) : ChunkInsertInfo :=
  { start := d.start, inserted := fun _ => 0, deleted := d.deleted }

/-- VersionManager::GetInsertInfo, acting on the map: returns the insert
info of the block (creating or promoting as needed) and the updated map. -/
def getInsertInfo (m : InfoMap) (chunk_idx : Nat) : ChunkInsertInfo × InfoMap :=
  match m chunk_idx with
  | none =>
    -- no version info yet: have to create one
    let new_info := newInsertInfo (chunk_idx * STANDARD_VECTOR_SIZE)
    (new_info, mapInsert m chunk_idx (ChunkInfo.ins new_info))
  | some current_info =>
    -- version info already exists: check if it is insert or delete info
    match current_info with
    | .ins ii => (ii, m)
    | .del d =>
      -- delete info, change to insert info
      let new_info := ChunkInsertInfo.ofDelete d
      (new_info, mapInsert m chunk_idx (ChunkInfo.ins new_info))

/-- The stamp `current_info->inserted[idx_in_chunk] = commit_id`:
current_info is the map's (insert-info) entry of the block. -/
def setInserted (m : InfoMap) (chunk_idx idx commit_id : Nat) : InfoMap :=
  match m chunk_idx with
  | some (ChunkInfo.ins ii) =>
    mapInsert m chunk_idx
      (ChunkInfo.ins { ii with inserted := fun k => if k = idx then commit_id else ii.inserted k })
  | _ => m

/-- The body of VersionManager::Append's loop over `count` rows: stamp,
advance, and on block rollover obtain the next block's insert info. -/
def appendRows (m : InfoMap) (chunk_idx idx_in_chunk commit_id : Nat) : Nat → InfoMap
  | 0 => m
  | Nat.succ n =>
    let m1 := setInserted m chunk_idx idx_in_chunk commit_id
    let idx1 := idx_in_chunk + 1
    if idx1 = STANDARD_VECTOR_SIZE then
      appendRows (getInsertInfo m1 (chunk_idx + 1)).2 (chunk_idx + 1) 0 commit_id n
    else
      appendRows m1 chunk_idx idx1 commit_id n

/-- VersionManager::Append. -/
def VersionManager.Append (vm : VersionManager) (transaction : Transaction)
    (row_start count commit_id : Nat) : List LockMode × VersionManager :=
  let chunk_idx := row_start / STANDARD_VECTOR_SIZE
  let idx_in_chunk := row_start - chunk_idx * STANDARD_VECTOR_SIZE
  -- obtain a write lock
  ([LockMode.exclusive],
    { vm with
      info := appendRows (getInsertInfo vm.info chunk_idx).2 chunk_idx idx_in_chunk commit_id count,
      max_row := vm.max_row + count })

/-- The erase loop of VersionManager::RevertAppend:
`for (; chunk_start <= chunk_end; chunk_start++) info.erase(chunk_start)`. -/
def eraseRange (m : InfoMap) (chunk_start chunk_end : Nat) : InfoMap :=
  (List.range' chunk_start (chunk_end + 1 - chunk_start)).foldl mapErase m

/-- VersionManager::RevertAppend. -/
def VersionManager.RevertAppend (vm : VersionManager) (row_start row_end : Nat) :
    List LockMode × VersionManager :=
  let chunk_start := row_start / STANDARD_VECTOR_SIZE +
    (if row_start % STANDARD_VECTOR_SIZE = 0 then 0 else 1)
  let chunk_end := row_end / STANDARD_VECTOR_SIZE
  ([LockMode.exclusive], { vm with info := eraseRange vm.info chunk_start chunk_end })

/-- Commit id recorded for absolute row slot `p` when its block currently
holds insert info (the observable that Append's stamping establishes). -/
def lookupIns (m : InfoMap) (p : Nat) : Option Nat :=
  match m (p / STANDARD_VECTOR_SIZE) with
  | some (ChunkInfo.ins ii) => some (ii.inserted (p % STANDARD_VECTOR_SIZE))
  | _ => none

/-! Expression-executor side.  The Vector/DataChunk primitives and
VectorOperations live outside src/, so they are modelled from the spec:
a vector carries the identity of its backing storage (a pointer in the
source), its element count, an optional selection vector (whose identity
models pointer identity, as required by the identical-instance property),
a constant flag, element payloads and a null mask.  The per-kind handlers
(Execute(BoundX&, ...)) are also outside the two source files: the
dispatcher's effect is modelled by taking the handler's result vector as a
parameter. -/

/-- A selection vector: an instance identity (pointer) plus its entries. -/
structure SelVector where
  id : Nat
  entries : List Nat
deriving DecidableEq

/-- Modelled from the spec: a columnar vector (vector.hpp is not under
src/).  Values are untyped `Nat` payloads. -/
structure Vector where
  data_id : Nat
  owned_data : Option Nat
  count : Nat
  sel_vector : Option SelVector
  is_const : Bool
  values : Nat → Nat
  nullmask : Nat → Bool

/-- A DataChunk as seen by the executor: its row count and its shared
selection vector. -/
structure Chunk where
  size : Nat
  sel_vector : Option SelVector

/-- Physical position of logical element `k` under a selection vector:
`sel ? sel[k] : k`. -/
def selPos (sel : Option SelVector) (k : Nat) : Nat :=
  match sel with
  | none => k
  | some s => s.entries.getD k 0

/-- The physical positions VectorOperations::Exec visits, in visit order:
`i = sel ? sel[k] : k` for `k = 0 .. count-1` (modelled from the spec;
vector_operations is not under src/). -/
def execIndices (count : Nat) (sel : Option SelVector) : List Nat :=
  (List.range count).map (selPos sel)

/-- Vector::GetValue (modelled from the spec): reads the element at the
physical position of logical index `k`. -/
def Vector.GetValue (v : Vector) (k : Nat) : Nat :=
  v.values (selPos v.sel_vector k)

/-- VectorOperations::Set (modelled from the spec): writes `val` to every
active element of the vector, honoring its selection vector. -/
def VectorOperations.Set (v : Vector) (val : Nat) : Vector :=
  { v with values := fun p => if p ∈ execIndices v.count v.sel_vector then val else v.values p }

/-- Outcome of ExpressionExecutor::ExecuteExpression(expr_idx, result):
success, the length-mismatch exception, or the debug assertion
`assert(result.sel_vector == chunk->sel_vector)` firing. -/
inductive ExecOutcome where
  | ok (v : Vector)
  | lengthMismatch
  | assertFailed

/-- The tail of ExecuteExpression: restore `owned_data` when the backing
storage is still the caller's (`result.data == initial_data`). -/
def restoreOwned (initial_data : Nat) (owned : Option Nat) (v : Vector) : Vector :=
  if v.data_id = initial_data then { v with owned_data := owned }
  else { v with owned_data := v.owned_data }

/-- ExpressionExecutor::ExecuteExpression(expr_idx, result) after the
dispatched Execute call: `res` is the vector the handler produced,
`initial_data`/`initial_owned` the result vector's storage before the call,
`chunk` the executor's active input chunk (null when absent). -/
def executeExpressionCore (chunk : Option Chunk) (res : Vector)
    (initial_data : Nat) (initial_owned : Option Nat) : ExecOutcome :=
  match chunk with
  | some c =>
    -- we have an input chunk: result should have the same length as the chunk
    if res.is_const then
      -- have to duplicate the constant value to match the rows in the other columns
      let constant_value := res.GetValue 0
      let r1 := { res with data_id := initial_data, count := c.size, sel_vector := c.sel_vector }
      let r2 := VectorOperations.Set r1 constant_value
      if r2.sel_vector = c.sel_vector then .ok (restoreOwned initial_data initial_owned r2)
      else .assertFailed
    else if res.count ≠ c.size then .lengthMismatch
    else if res.sel_vector = c.sel_vector then .ok (restoreOwned initial_data initial_owned res)
    else .assertFailed
  | none => .ok (restoreOwned initial_data initial_owned res)

/-- ExpressionExecutor::EvaluateScalar: evaluate with no input chunk into a
one-element vector, assert a single row, read it.  `handler` is the
dispatched evaluation of the (foldable) expression, a function of the
active chunk. -/
def EvaluateScalar (handler : Option Chunk → Vector)
    (initial_data : Nat) (initial_owned : Option Nat) : Option Nat :=
  match executeExpressionCore none (handler none) initial_data initial_owned with
  | .ok result => if result.count = 1 then some (result.GetValue 0) else none
  | _ => none

/-- ExpressionExecutor::DefaultSelect, given the evaluated boolean
`intermediate` vector.  The second component is the sequence of positions
written to the output buffer `result[]`, in write order ([] when the buffer
is untouched); the first is the returned count. -/
def DefaultSelect (c : Chunk) (intermediate : Vector) : Nat × List Nat :=
  if intermediate.is_const then
    -- constant result: get the value
    if intermediate.values 0 ≠ 0 ∧ intermediate.nullmask 0 = false then
      -- constant true: return everything; the selection vector is not filled
      (c.size, [])
    else
      -- constant false: filter everything
      (0, [])
  else
    -- not a constant value
    let written := (execIndices intermediate.count intermediate.sel_vector).filter
      (fun i => decide (intermediate.values i ≠ 0) && !intermediate.nullmask i)
    (written.length, written)

/-! Specification-side definitions, used to state the claims. -/

/-- Spec wording of claim C2: block `b` is fully contained in the inclusive
row interval [row_start, row_end]. -/
def blockFullyContained (row_start row_end b : Nat) : Prop :=
  row_start ≤ b * STANDARD_VECTOR_SIZE ∧
    b * STANDARD_VECTOR_SIZE + (STANDARD_VECTOR_SIZE - 1) ≤ row_end

instance (row_start row_end b : Nat) : Decidable (blockFullyContained row_start row_end b) :=
  inferInstanceAs (Decidable (And _ _))

/-- Undo entries of one maximal run of consecutive same-block ids and of
the runs after it: `c` is the run's block, `acc` the offsets gathered so
far. -/
def runEntries (B c : Nat) (acc : List Nat) : List Nat → List DeleteEntry
  | [] => [{ offsets := acc, baseRow := B + c * STANDARD_VECTOR_SIZE }]
  | id :: rest =>
    if id / STANDARD_VECTOR_SIZE = c then
      runEntries B c (acc ++ [id % STANDARD_VECTOR_SIZE]) rest
    else
      { offsets := acc, baseRow := B + c * STANDARD_VECTOR_SIZE } ::
        runEntries B (id / STANDARD_VECTOR_SIZE) [id % STANDARD_VECTOR_SIZE] rest

/-- One undo entry per maximal run of consecutive same-block (manager-relative)
row ids, carrying the run's offsets in order and the block's absolute base
row `B + block * STANDARD_VECTOR_SIZE`. -/
def deleteEntriesSpec (B : Nat) : List Nat → List DeleteEntry
  | [] => []
  | id :: rest => runEntries B (id / STANDARD_VECTOR_SIZE) [id % STANDARD_VECTOR_SIZE] rest

/-- Well-formedness of a selection vector for `count` rows: enough entries,
listed in ascending order (the batch layout the spec's ascending-output
property presupposes). -/
def selAscending (sel : Option SelVector) (count : Nat) : Prop :=
  match sel with
  | none => True
  | some s => count ≤ s.entries.length ∧ List.Sorted (· < ·) s.entries

/-! Concrete inputs for witnesses and counterexamples. -/

/-- An empty version manager. -/
def vmEmpty : VersionManager := { base_row := 0, max_row := 0, info := fun _ => none }

/-- A version manager whose block 0 holds delete info (say, rows 2 and 7
were deleted earlier). -/
def vmDel0 : VersionManager :=
  { base_row := 0, max_row := 2048,
    info := fun b =>
      if b = 0 then some (ChunkInfo.del { start := 0, deleted := fun k => k = 2 || k = 7 })
      else none }

/-- A concrete selection vector instance. -/
def selW : SelVector := { id := 1, entries := [0, 2, 3] }

/-- A concrete input chunk of three active rows under `selW`. -/
def chunkW : Chunk := { size := 3, sel_vector := some selW }

/-- A constant handler result (single value 9, non-null). -/
def constVecW : Vector :=
  { data_id := 50, owned_data := none, count := 1, sel_vector := none,
    is_const := true, values := fun _ => 9, nullmask := fun _ => false }

/-- A non-constant handler result of the wrong length (2 rows against a
3-row chunk). -/
def shortVecW : Vector :=
  { data_id := 60, owned_data := none, count := 2, sel_vector := some selW,
    is_const := false, values := fun _ => 1, nullmask := fun _ => false }

/-- A non-constant boolean vector over `chunkW`: true at physical positions
0 and 3, null at 3, false at 2. -/
def boolVecW : Vector :=
  { data_id := 70, owned_data := none, count := 3, sel_vector := some selW,
    is_const := false, values := fun p => if p = 0 ∨ p = 3 then 1 else 0,
    nullmask := fun p => p = 3 }

/-- A constant-null boolean vector. -/
def nullBoolVecW : Vector :=
  { data_id := 80, owned_data := none, count := 1, sel_vector := none,
    is_const := true, values := fun _ => 1, nullmask := fun _ => true }

/-! Helper lemmas. -/

theorem foldl_mapErase_range' (n : Nat) : ∀ (lo : Nat) (m : InfoMap) (b : Nat),
    ((List.range' lo n).foldl mapErase m) b =
      if lo ≤ b ∧ b < lo + n then none else m b := by
  induction n with
  | zero =>
    intro lo m b
    simp only [List.range', List.foldl_nil]
    rw [if_neg (by omega)]
  | succ k ih =>
    intro lo m b
    show ((lo :: List.range' (lo + 1) k).foldl mapErase m) b = _
    rw [List.foldl_cons, ih]
    simp only [mapErase]
    split_ifs with h1 h2 h3 h4 h5 <;> try rfl
    all_goals exfalso; omega

theorem eraseRange_apply (m : InfoMap) (cs ce b : Nat) :
    eraseRange m cs ce b = if cs ≤ b ∧ b ≤ ce then none else m b := by
  unfold eraseRange
  rw [foldl_mapErase_range']
  refine if_congr ?_ rfl rfl
  omega

theorem revertAppend_info (vm : VersionManager) (rs re b : Nat) :
    (vm.RevertAppend rs re).2.info b =
      if rs ≤ b * STANDARD_VECTOR_SIZE ∧ b * STANDARD_VECTOR_SIZE ≤ re then none
      else vm.info b := by
  show eraseRange vm.info
      (rs / STANDARD_VECTOR_SIZE + (if rs % STANDARD_VECTOR_SIZE = 0 then 0 else 1))
      (re / STANDARD_VECTOR_SIZE) b = _
  rw [eraseRange_apply]
  refine if_congr ?_ rfl rfl
  simp only [STANDARD_VECTOR_SIZE]
  constructor
  · rintro ⟨h1, h2⟩
    by_cases hm : rs % 1024 = 0 <;> simp [hm] at h1 <;> omega
  · rintro ⟨h1, h2⟩
    by_cases hm : rs % 1024 = 0 <;> simp [hm] <;> omega

theorem restoreOwned_count (d : Nat) (ow : Option Nat) (v : Vector) :
    (restoreOwned d ow v).count = v.count := by
  unfold restoreOwned; split_ifs <;> rfl

theorem restoreOwned_sel (d : Nat) (ow : Option Nat) (v : Vector) :
    (restoreOwned d ow v).sel_vector = v.sel_vector := by
  unfold restoreOwned; split_ifs <;> rfl

theorem restoreOwned_getValue (d : Nat) (ow : Option Nat) (v : Vector) (k : Nat) :
    (restoreOwned d ow v).GetValue k = v.GetValue k := by
  unfold restoreOwned Vector.GetValue; split_ifs <;> rfl

theorem set_getValue (v : Vector) (val k : Nat) (h : k < v.count) :
    (VectorOperations.Set v val).GetValue k = val := by
  show (if selPos v.sel_vector k ∈ execIndices v.count v.sel_vector
        then val else v.values (selPos v.sel_vector k)) = val
  rw [if_pos]
  exact List.mem_map_of_mem _ (List.mem_range.mpr h)

theorem execIndices_none (count : Nat) : execIndices count none = List.range count := by
  have h : selPos none = fun k : Nat => k := rfl
  rw [execIndices, h, List.map_id']

theorem execIndices_some (s : SelVector) (count : Nat) (h : count ≤ s.entries.length) :
    execIndices count (some s) = s.entries.take count := by
  apply List.ext_getElem
  · simp [execIndices]
    omega
  · intro i h1 h2
    simp only [execIndices, selPos, List.getElem_map, List.getElem_range, List.getElem_take]
    rw [List.getD_eq_getElem]

theorem execIndices_sorted (sel : Option SelVector) (count : Nat)
    (h : selAscending sel count) : List.Sorted (· < ·) (execIndices count sel) := by
  match sel with
  | none =>
    rw [execIndices_none]
    exact List.sorted_lt_range count
  | some s =>
    obtain ⟨h1, h2⟩ := h
    rw [execIndices_some s count h1]
    exact List.Pairwise.sublist (List.take_sublist count s.entries) h2

/-- Constant-broadcast branch of ExecuteExpression with an active chunk:
shared between the C1 and C8 developments. -/
theorem executeCore_const (c : Chunk) (res : Vector) (d : Nat) (ow : Option Nat)
    (h : res.is_const = true) :
    ∃ r, executeExpressionCore (some c) res d ow = .ok r ∧
      r.count = c.size ∧ r.sel_vector = c.sel_vector ∧
      ∀ k, k < c.size → r.GetValue k = res.GetValue 0 := by
  simp only [executeExpressionCore]
  rw [if_pos h]
  split_ifs with hs
  · refine ⟨_, rfl, ?_, ?_, ?_⟩
    · rw [restoreOwned_count]; rfl
    · rw [restoreOwned_sel]; rfl
    · intro k hk
      rw [restoreOwned_getValue]
      exact set_getValue _ _ _ hk
  · exact absurd rfl hs

theorem flush_nil (s : DelState) (h : s.rows = []) : s.flush = s := by
  unfold DelState.flush
  rw [if_pos h]

theorem flush_active (s : DelState) (c : Nat) (hne : s.rows ≠ [])
    (hc : s.current_chunk = some c) :
    s.flush = { s with
      manager_info := delFlushMap s.manager_info c s.rows,
      pushes := s.pushes ++ [{ offsets := s.rows, baseRow := s.base_row + s.chunk_row }],
      rows := [] } := by
  unfold DelState.flush
  rw [if_neg hne, hc]

theorem deleteRow_same (s : DelState) (id c : Nat)
    (hc : s.current_chunk = some c) (heq : id / STANDARD_VECTOR_SIZE = c) :
    s.deleteRow id = { s with
      rows := s.rows ++ [id - c * STANDARD_VECTOR_SIZE],
      writeIdxs := s.writeIdxs ++ [s.rows.length] } := by
  simp only [DelState.deleteRow]
  rw [heq, if_pos hc]

theorem deleteRow_diff (s : DelState) (id : Nat)
    (hne : ¬ s.current_chunk = some (id / STANDARD_VECTOR_SIZE)) :
    s.deleteRow id = { s.flush with
      manager_info := delTouch (s.flush).manager_info (id / STANDARD_VECTOR_SIZE),
      current_chunk := some (id / STANDARD_VECTOR_SIZE),
      chunk_row := (id / STANDARD_VECTOR_SIZE) * STANDARD_VECTOR_SIZE,
      rows := (s.flush).rows ++ [id - (id / STANDARD_VECTOR_SIZE) * STANDARD_VECTOR_SIZE],
      writeIdxs := (s.flush).writeIdxs ++ [(s.flush).rows.length] } := by
  simp only [DelState.deleteRow]
  rw [if_neg hne]

theorem sub_chunk_mul_eq_mod (id : Nat) :
    id - (id / STANDARD_VECTOR_SIZE) * STANDARD_VECTOR_SIZE = id % STANDARD_VECTOR_SIZE := by
  simp only [STANDARD_VECTOR_SIZE]
  omega

/-- Processing a tail of ids from an active-run state produces exactly the
run entries of `runEntries`, appended to the pushes made so far. -/
theorem delete_fold_trace (l : List Nat) : ∀ (s : DelState) (c : Nat),
    s.current_chunk = some c → s.chunk_row = c * STANDARD_VECTOR_SIZE → s.rows ≠ [] →
    ((l.foldl DelState.deleteRow s).flush).pushes =
      s.pushes ++ runEntries s.base_row c s.rows l := by
  induction l with
  | nil =>
    intro s c hc hrow hne
    rw [List.foldl_nil, flush_active s c hne hc, runEntries, hrow]
  | cons id t ih =>
    intro s c hc hrow hne
    rw [List.foldl_cons]
    by_cases heq : id / STANDARD_VECTOR_SIZE = c
    · rw [deleteRow_same s id c hc heq]
      rw [ih _ c (by exact hc) (by exact hrow) (by simp)]
      have hoff : id - c * STANDARD_VECTOR_SIZE = id % STANDARD_VECTOR_SIZE := by
        rw [← heq]; exact sub_chunk_mul_eq_mod id
      simp [runEntries, heq, hoff]
    · have hne2 : ¬ s.current_chunk = some (id / STANDARD_VECTOR_SIZE) := by
        rw [hc]
        intro h
        exact heq (Option.some.inj h).symm
      rw [deleteRow_diff s id hne2, flush_active s c hne hc]
      rw [ih _ (id / STANDARD_VECTOR_SIZE) (by rfl) (by rfl) (by simp)]
      simp [runEntries, heq, sub_chunk_mul_eq_mod, hrow]

theorem flush_writeIdxs (s : DelState) :
    (s.flush).writeIdxs = s.writeIdxs ∧ (s.flush).rows.length ≤ s.rows.length := by
  unfold DelState.flush
  split_ifs with h
  · exact ⟨rfl, Nat.le_refl _⟩
  · cases hc : s.current_chunk with
    | none => exact ⟨rfl, Nat.le_refl _⟩
    | some c => exact ⟨rfl, Nat.zero_le _⟩

theorem deleteRow_writeIdxs (s : DelState) (id : Nat) :
    ∃ k, (s.deleteRow id).writeIdxs = s.writeIdxs ++ [k] ∧ k ≤ s.rows.length ∧
      (s.deleteRow id).rows.length ≤ s.rows.length + 1 := by
  by_cases hc : s.current_chunk = some (id / STANDARD_VECTOR_SIZE)
  · rw [deleteRow_same s id (id / STANDARD_VECTOR_SIZE) hc rfl]
    exact ⟨s.rows.length, rfl, Nat.le_refl _, by simp⟩
  · rw [deleteRow_diff s id hc]
    refine ⟨(s.flush).rows.length, ?_, ?_, ?_⟩
    · show (s.flush).writeIdxs ++ [(s.flush).rows.length] =
        s.writeIdxs ++ [(s.flush).rows.length]
      rw [(flush_writeIdxs s).1]
    · exact (flush_writeIdxs s).2
    · show ((s.flush).rows ++ [id - (id / STANDARD_VECTOR_SIZE) * STANDARD_VECTOR_SIZE]).length ≤
        s.rows.length + 1
      have := (flush_writeIdxs s).2
      simp only [List.length_append, List.length_singleton]
      omega

/-- Every write index recorded while processing `l` is either an old one or
bounded by the incoming buffer fill plus the number of ids processed; the
buffer fill grows by at most one per id. -/
theorem delete_fold_writes (l : List Nat) : ∀ (s : DelState),
    (∀ w ∈ (l.foldl DelState.deleteRow s).writeIdxs,
        w ∈ s.writeIdxs ∨ w < s.rows.length + l.length) ∧
    (l.foldl DelState.deleteRow s).rows.length ≤ s.rows.length + l.length := by
  induction l with
  | nil =>
    intro s
    exact ⟨fun w hw => Or.inl hw, by simp⟩
  | cons id t ih =>
    intro s
    rw [List.foldl_cons]
    obtain ⟨k, hw, hk, hlen⟩ := deleteRow_writeIdxs s id
    obtain ⟨ih1, ih2⟩ := ih (s.deleteRow id)
    constructor
    · intro w hmem
      rcases ih1 w hmem with h | h
      · rw [hw] at h
        rcases List.mem_append.mp h with h' | h'
        · exact Or.inl h'
        · have hwk : w = k := List.mem_singleton.mp h'
          right
          simp only [List.length_cons]
          omega
      · right
        simp only [List.length_cons]
        omega
    · simp only [List.length_cons]
      omega

theorem getInsertInfo_at (m : InfoMap) (c : Nat) :
    (getInsertInfo m c).2 c = some (ChunkInfo.ins (getInsertInfo m c).1) := by
  unfold getInsertInfo
  cases hm : m c with
  | none => simp [mapInsert]
  | some ci =>
    cases ci with
    | ins ii => exact hm
    | del d => simp [mapInsert]

theorem getInsertInfo_other (m : InfoMap) (c b : Nat) (h : ¬ b = c) :
    (getInsertInfo m c).2 b = m b := by
  unfold getInsertInfo
  cases hm : m c with
  | none => simp [mapInsert, h]
  | some ci =>
    cases ci with
    | ins ii => rfl
    | del d => simp [mapInsert, h]

theorem setInserted_at (m : InfoMap) (c i cid : Nat) (ii : ChunkInsertInfo)
    (h : m c = some (ChunkInfo.ins ii)) :
    (setInserted m c i cid) c =
      some (ChunkInfo.ins { ii with inserted := fun k => if k = i then cid else ii.inserted k }) := by
  unfold setInserted
  rw [h]
  simp [mapInsert]

theorem lookupIns_setInserted_eq (m : InfoMap) (c i cid : Nat) (ii : ChunkInsertInfo)
    (h : m c = some (ChunkInfo.ins ii)) (hi : i < STANDARD_VECTOR_SIZE) :
    lookupIns (setInserted m c i cid) (c * STANDARD_VECTOR_SIZE + i) = some cid := by
  have hdiv : (c * STANDARD_VECTOR_SIZE + i) / STANDARD_VECTOR_SIZE = c := by
    simp only [STANDARD_VECTOR_SIZE] at hi ⊢
    omega
  have hmod : (c * STANDARD_VECTOR_SIZE + i) % STANDARD_VECTOR_SIZE = i := by
    simp only [STANDARD_VECTOR_SIZE] at hi ⊢
    omega
  unfold lookupIns
  rw [hdiv, hmod, setInserted_at m c i cid ii h]
  simp

theorem lookupIns_setInserted_ne (m : InfoMap) (c i cid q : Nat)
    (h : ¬ (q / STANDARD_VECTOR_SIZE = c ∧ q % STANDARD_VECTOR_SIZE = i)) :
    lookupIns (setInserted m c i cid) q = lookupIns m q := by
  unfold setInserted
  cases hm : m c with
  | none => rfl
  | some ci =>
    cases ci with
    | del d => rfl
    | ins ii =>
      unfold lookupIns mapInsert
      dsimp only
      by_cases hq : q / STANDARD_VECTOR_SIZE = c
      · rw [if_pos hq, hq, hm]
        have hne : ¬ q % STANDARD_VECTOR_SIZE = i := fun hh => h ⟨hq, hh⟩
        simp [hne]
      · rw [if_neg hq]

theorem lookupIns_getInsertInfo_ne (m : InfoMap) (c q : Nat)
    (h : ¬ q / STANDARD_VECTOR_SIZE = c) :
    lookupIns ((getInsertInfo m c).2) q = lookupIns m q := by
  unfold lookupIns
  rw [getInsertInfo_other m c _ h]

/-- Append's loop touches only slots at or after its current position. -/
theorem appendRows_preserves (n : Nat) : ∀ (m : InfoMap) (c i cid q : Nat),
    i < STANDARD_VECTOR_SIZE → q < c * STANDARD_VECTOR_SIZE + i →
    lookupIns (appendRows m c i cid n) q = lookupIns m q := by
  induction n with
  | zero => intro m c i cid q hi hq; rfl
  | succ k ih =>
    intro m c i cid q hi hq
    rw [appendRows]
    split_ifs with hroll
    · rw [ih _ (c + 1) 0 cid q (by simp [STANDARD_VECTOR_SIZE])
        (by simp only [STANDARD_VECTOR_SIZE] at hq hi ⊢; omega)]
      rw [lookupIns_getInsertInfo_ne _ _ _ (by simp only [STANDARD_VECTOR_SIZE] at hq hi ⊢; omega)]
      rw [lookupIns_setInserted_ne _ _ _ _ _ (by simp only [STANDARD_VECTOR_SIZE] at hq hi ⊢; omega)]
    · rw [ih _ c (i + 1) cid q (by simp only [STANDARD_VECTOR_SIZE] at hroll hi ⊢; omega)
        (by omega)]
      rw [lookupIns_setInserted_ne _ _ _ _ _ (by simp only [STANDARD_VECTOR_SIZE] at hq hi ⊢; omega)]

/-- Append's loop stamps commit_id into every slot it walks over. -/
theorem appendRows_stamps (n : Nat) : ∀ (m : InfoMap) (c i cid : Nat),
    i < STANDARD_VECTOR_SIZE → (∃ ii, m c = some (ChunkInfo.ins ii)) →
    ∀ j, j < n →
      lookupIns (appendRows m c i cid n) (c * STANDARD_VECTOR_SIZE + i + j) = some cid := by
  induction n with
  | zero => intro m c i cid hi hins j hj; exact absurd hj (Nat.not_lt_zero j)
  | succ k ih =>
    intro m c i cid hi hins j hj
    obtain ⟨ii, hii⟩ := hins
    rw [appendRows]
    cases j with
    | zero =>
      rw [Nat.add_zero]
      split_ifs with hroll
      · rw [appendRows_preserves k _ (c + 1) 0 cid _ (by simp [STANDARD_VECTOR_SIZE])
          (by simp only [STANDARD_VECTOR_SIZE] at hi ⊢; omega)]
        rw [lookupIns_getInsertInfo_ne _ _ _ (by simp only [STANDARD_VECTOR_SIZE] at hi ⊢; omega)]
        exact lookupIns_setInserted_eq m c i cid ii hii hi
      · rw [appendRows_preserves k _ c (i + 1) cid _
          (by simp only [STANDARD_VECTOR_SIZE] at hroll hi ⊢; omega) (by omega)]
        exact lookupIns_setInserted_eq m c i cid ii hii hi
    | succ j' =>
      split_ifs with hroll
      · have hstep : c * STANDARD_VECTOR_SIZE + i + (j' + 1) =
            (c + 1) * STANDARD_VECTOR_SIZE + 0 + j' := by
          simp only [STANDARD_VECTOR_SIZE] at hroll ⊢
          omega
        rw [hstep]
        exact ih _ (c + 1) 0 cid (by simp [STANDARD_VECTOR_SIZE])
          ⟨_, getInsertInfo_at _ _⟩ j' (by omega)
      · have hstep : c * STANDARD_VECTOR_SIZE + i + (j' + 1) =
            c * STANDARD_VECTOR_SIZE + (i + 1) + j' := by omega
        rw [hstep]
        exact ih _ c (i + 1) cid (by simp only [STANDARD_VECTOR_SIZE] at hroll hi ⊢; omega)
          ⟨_, setInserted_at m c i cid ii hii⟩ j' (by omega)

theorem setInserted_kind (m : InfoMap) (c i cid b : Nat) :
    kindOf ((setInserted m c i cid) b) = kindOf (m b) := by
  unfold setInserted
  cases hm : m c with
  | none => rfl
  | some ci =>
    cases ci with
    | del d => rfl
    | ins ii =>
      unfold mapInsert
      dsimp only
      by_cases hb : b = c
      · rw [if_pos hb, hb, hm]
        rfl
      · rw [if_neg hb]

theorem getInsertInfo_kind (m : InfoMap) (c b : Nat) :
    kindOf ((getInsertInfo m c).2 b) = kindOf (m b) ∨
    kindOf ((getInsertInfo m c).2 b) = some ChunkInfoKind.ins := by
  by_cases hb : b = c
  · subst hb
    right
    rw [getInsertInfo_at]
    rfl
  · left
    rw [getInsertInfo_other m c b hb]

theorem appendRows_kind (n : Nat) : ∀ (m : InfoMap) (c i cid b : Nat),
    kindOf ((appendRows m c i cid n) b) = kindOf (m b) ∨
    kindOf ((appendRows m c i cid n) b) = some ChunkInfoKind.ins := by
  induction n with
  | zero => intro m c i cid b; left; rfl
  | succ k ih =>
    intro m c i cid b
    rw [appendRows]
    split_ifs with hroll
    · rcases ih (getInsertInfo (setInserted m c i cid) (c + 1)).2 (c + 1) 0 cid b with h | h
      · rcases getInsertInfo_kind (setInserted m c i cid) (c + 1) b with h2 | h2
        · left
          rw [h, h2, setInserted_kind]
        · right
          rw [h, h2]
      · right
        exact h
    · rcases ih (setInserted m c i cid) c (i + 1) cid b with h | h
      · left
        rw [h, setInserted_kind]
      · right
        exact h

theorem delTouch_kind (m : InfoMap) (c b : Nat) :
    kindOf ((delTouch m c) b) = kindOf (m b) ∨
    (kindOf (m b) = none ∧ kindOf ((delTouch m c) b) = some ChunkInfoKind.del) := by
  unfold delTouch
  cases hm : m c with
  | some ci => left; rfl
  | none =>
    unfold mapInsert
    dsimp only
    by_cases hb : b = c
    · right
      rw [if_pos hb, hb, hm]
      exact ⟨rfl, rfl⟩
    · left
      rw [if_neg hb]

theorem delFlushMap_kind (m : InfoMap) (c : Nat) (offs : List Nat) (b : Nat) :
    kindOf ((delFlushMap m c offs) b) = kindOf (m b) := by
  unfold delFlushMap
  by_cases hb : b = c
  · rw [if_pos hb, hb]
    cases m c with
    | none => rfl
    | some ci => cases ci <;> rfl
  · rw [if_neg hb]

theorem flush_kind (s : DelState) (b : Nat) :
    kindOf ((s.flush).manager_info b) = kindOf (s.manager_info b) := by
  unfold DelState.flush
  split_ifs
  · rfl
  · cases hc : s.current_chunk with
    | none => rfl
    | some c => exact delFlushMap_kind _ _ _ _

theorem deleteRow_kind (s : DelState) (id b : Nat) :
    kindOf (((s.deleteRow id).manager_info) b) = kindOf (s.manager_info b) ∨
    (kindOf (s.manager_info b) = none ∧
      kindOf (((s.deleteRow id).manager_info) b) = some ChunkInfoKind.del) := by
  by_cases hc : s.current_chunk = some (id / STANDARD_VECTOR_SIZE)
  · rw [deleteRow_same s id _ hc rfl]
    left
    rfl
  · rw [deleteRow_diff s id hc]
    show kindOf ((delTouch (s.flush).manager_info (id / STANDARD_VECTOR_SIZE)) b) = _ ∨ _
    rcases delTouch_kind (s.flush).manager_info (id / STANDARD_VECTOR_SIZE) b with h | ⟨h1, h2⟩
    · left
      rw [h, flush_kind]
    · right
      exact ⟨(flush_kind s b).symm.trans h1, h2⟩

theorem delete_fold_kind (l : List Nat) : ∀ (s : DelState) (b : Nat),
    kindOf (((l.foldl DelState.deleteRow s).manager_info) b) = kindOf (s.manager_info b) ∨
    (kindOf (s.manager_info b) = none ∧
      kindOf (((l.foldl DelState.deleteRow s).manager_info) b) = some ChunkInfoKind.del) := by
  induction l with
  | nil => intro s b; left; rfl
  | cons id t ih =>
    intro s b
    rw [List.foldl_cons]
    rcases ih (s.deleteRow id) b with h | ⟨h1, h2⟩
    · rcases deleteRow_kind s id b with h3 | ⟨h3, h4⟩
      · left
        rw [h, h3]
      · right
        exact ⟨h3, h.trans h4⟩
    · rcases deleteRow_kind s id b with h3 | ⟨h3, h4⟩
      · right
        exact ⟨h3.symm.trans h1, h2⟩
      · exact absurd (h1.symm.trans h4) (by simp)

/-! Claim theorems. -/

/-- C2 counterexample: RevertAppend(0, 0) erases the pre-existing entry of
block 0 even though block 0 (rows 0..1023) is not fully contained in the
interval [0, 0]; the claim's "erases if and only if fully contained" is
false as stated. -/
theorem revert_append_fully_contained_cex :
    (vmDel0.RevertAppend 0 0).2.info 0 = none ∧
    vmDel0.info 0 ≠ none ∧ ¬ blockFullyContained 0 0 0 := by
  refine ⟨rfl, ?_, by decide⟩
  simp [vmDel0]

/-- C2 (amended): RevertAppend(row_start, row_end) erases a block's
version-info entry exactly when the block's first row lies in
[row_start, row_end] (equivalently, row_start ≤ b·STANDARD_VECTOR_SIZE ≤
row_end); hence a block partially covered at the end of the range is also
erased, while when row_start is not block-aligned the block containing
row_start keeps its pre-existing entry, and no block disjoint from the
range loses its entry. -/
theorem revert_append_erase_characterization (vm : VersionManager) (rs re b : Nat) :
    ((vm.RevertAppend rs re).2.info b =
      if rs ≤ b * STANDARD_VECTOR_SIZE ∧ b * STANDARD_VECTOR_SIZE ≤ re then none
      else vm.info b) ∧
    (rs % STANDARD_VECTOR_SIZE ≠ 0 →
      (vm.RevertAppend rs re).2.info (rs / STANDARD_VECTOR_SIZE) =
        vm.info (rs / STANDARD_VECTOR_SIZE)) := by
  refine ⟨revertAppend_info vm rs re b, fun h => ?_⟩
  rw [revertAppend_info, if_neg]
  rintro ⟨h1, h2⟩
  simp only [STANDARD_VECTOR_SIZE] at h h1
  omega

/-- C2 witness: with a delete entry at block 0, RevertAppend(1500, 4000)
erases block 2 (first row 2048 lies in the range) and keeps the straddled
block 1 (= 1500 / 1024) untouched. -/
theorem revert_append_erase_characterization_witness :
    (vmDel0.RevertAppend 1500 4000).2.info 2 = none ∧
    (vmDel0.RevertAppend 1500 4000).2.info 1 = vmDel0.info 1 :=
  ⟨((revert_append_erase_characterization vmDel0 1500 4000 2).1).trans (if_pos (by decide)),
   (revert_append_erase_characterization vmDel0 1500 4000 1).2 (by decide)⟩

/-- C3: Delete pushes exactly one undo-log entry per maximal run of
consecutive same-block row ids, each carrying the run's offsets in order
and the block's absolute base row, with the final flush emitting the last
run's entry (the ids need not be sorted or block-aligned). -/
theorem delete_one_push_per_run (vm : VersionManager) (txn : Transaction)
    (ids : List Nat) (h : ∀ id ∈ ids, vm.base_row ≤ id) :
    (vm.Delete txn ids).2.2 =
      deleteEntriesSpec vm.base_row (ids.map (fun id => id - vm.base_row)) := by
  show (vm.deleteFinalState ids).pushes = _
  unfold VersionManager.deleteFinalState
  cases hm : ids.map (fun id => id - vm.base_row) with
  | nil =>
    rw [List.foldl_nil, flush_nil _ rfl]
    rfl
  | cons rid rest =>
    rw [List.foldl_cons]
    rw [deleteRow_diff _ rid (by intro hx; exact Option.noConfusion hx)]
    rw [flush_nil { manager_info := vm.info, current_chunk := none, chunk_row := 0, rows := [], pushes := [], writeIdxs := [], base_row := vm.base_row } rfl]
    rw [delete_fold_trace rest _ (rid / STANDARD_VECTOR_SIZE) (by rfl) (by rfl) (by simp)]
    simp [deleteEntriesSpec, sub_chunk_mul_eq_mod]

/-- C3 witness: Delete of the unsorted ids {5, 3} on a manager with no
prior version info for the block pushes exactly one undo record covering
both offsets, with the block's base row 0. -/
theorem delete_one_push_per_run_witness :
    (vmEmpty.Delete 0 [5, 3]).2.2 = [{ offsets := [5, 3], baseRow := 0 }] :=
  (delete_one_push_per_run vmEmpty 0 [5, 3] (by decide)).trans rfl

/-- C10: for a Delete call over at most STANDARD_VECTOR_SIZE row ids,
every write `rows[count++]` performed by VersionDeleteState::Delete uses an
array index strictly below STANDARD_VECTOR_SIZE, so it stays within the
rows buffer's bounds: count is reset on every block change and the total
number of writes is bounded by the number of ids. -/
theorem delete_writes_in_bounds (vm : VersionManager) (ids : List Nat)
    (h : ids.length ≤ STANDARD_VECTOR_SIZE) :
    ∀ w ∈ (vm.deleteFinalState ids).writeIdxs, w < STANDARD_VECTOR_SIZE := by
  intro w hw
  unfold VersionManager.deleteFinalState at hw
  rw [(flush_writeIdxs _).1] at hw
  have h2 := (delete_fold_writes (ids.map (fun id => id - vm.base_row)) _).1 w hw
  rcases h2 with h2 | h2
  · exact absurd h2 (List.not_mem_nil w)
  · simp only [List.length_map, List.length_nil] at h2
    omega

/-- C10 witness: the three-id Delete {5, 3, 2000} records write indices
0, 1, 0 — the witnessed index 1 is in bounds. -/
theorem delete_writes_in_bounds_witness :
    1 ∈ (vmEmpty.deleteFinalState [5, 3, 2000]).writeIdxs ∧ 1 < STANDARD_VECTOR_SIZE :=
  ⟨by decide, delete_writes_in_bounds vmEmpty [5, 3, 2000] (by decide) 1 (by decide)⟩

/-- C4: for a block index with no ChunkInfo entry, GetSelVector returns
max_count and leaves the out-positions buffer unmodified, and Fetch
returns true for every row of such a block, for every transaction. -/
theorem absent_block_fully_visible (vm : VersionManager) (txn : Transaction)
    (index : Nat) (sel : Nat → Nat) (max_count : Nat)
    (gs : ChunkInfo → Transaction → (Nat → Nat) → Nat → Nat × (Nat → Nat))
    (row : Nat) (cf : ChunkInfo → Transaction → Nat → Bool) :
    (vm.info index = none →
      (vm.GetSelVector txn index sel max_count gs).2 = (max_count, sel)) ∧
    (vm.info ((row - vm.base_row) / STANDARD_VECTOR_SIZE) = none →
      (vm.Fetch txn row cf).2 = true) := by
  constructor
  · intro h
    simp [VersionManager.GetSelVector, h]
  · intro h
    simp [VersionManager.Fetch, h]

/-- C4 witness: on an empty version manager, GetSelVector(0) returns the
given max_count 100 with the buffer untouched, and Fetch(5) is true. -/
theorem absent_block_fully_visible_witness :
    (vmEmpty.GetSelVector 0 0 (fun k => k) 100 (fun _ _ s m => (m, s))).2 = (100, fun k => k) ∧
    (vmEmpty.Fetch 0 5 (fun _ _ _ => false)).2 = true :=
  ⟨(absent_block_fully_visible vmEmpty 0 0 (fun k => k) 100 (fun _ _ s m => (m, s)) 5
      (fun _ _ _ => false)).1 rfl,
   (absent_block_fully_visible vmEmpty 0 0 (fun k => k) 100 (fun _ _ s m => (m, s)) 5
      (fun _ _ _ => false)).2 rfl⟩

/-- C9 counterexample: Fetch touches the version map while acquiring no
lock at all (its lock trace is empty, so in particular it never takes the
shared lock), unlike GetSelVector which does take the shared lock; the
claim that every reader, Fetch included, is shared-locked is false. -/
theorem fetch_unlocked_cex :
    LockMode.shared ∉ (vmDel0.Fetch 0 3 (fun _ _ _ => true)).1 ∧
    (vmDel0.GetSelVector 0 0 (fun k => k) 1024 (fun _ _ s m => (m, s))).1 =
      [LockMode.shared] := by
  refine ⟨?_, rfl⟩
  show LockMode.shared ∉ ([] : List LockMode)
  exact List.not_mem_nil _

/-- C1: with an active input chunk, a constant handler result is broadcast:
the result's count becomes the chunk's size, its selection vector becomes
the chunk's selection vector, and every active element carries the single
constant value; a non-constant result whose count differs from the chunk's
size fails with the length-mismatch error; and every non-failing outcome
carries the chunk's selection-vector instance (the source enforces the
last point with an assertion, which the embedding treats as a failing
outcome). -/
theorem execute_expression_reconciliation (c : Chunk) (res : Vector) (d : Nat)
    (ow : Option Nat) :
    (res.is_const = true →
      ∃ r, executeExpressionCore (some c) res d ow = .ok r ∧
        r.count = c.size ∧ r.sel_vector = c.sel_vector ∧
        ∀ k, k < c.size → r.GetValue k = res.GetValue 0) ∧
    (res.is_const = false → res.count ≠ c.size →
      executeExpressionCore (some c) res d ow = .lengthMismatch) ∧
    (∀ r, executeExpressionCore (some c) res d ow = .ok r →
      r.sel_vector = c.sel_vector) := by
  refine ⟨fun h => executeCore_const c res d ow h, fun h1 h2 => ?_, fun r hr => ?_⟩
  · simp only [executeExpressionCore, h1]
    rw [if_pos h2]
    simp
  · simp only [executeExpressionCore] at hr
    split_ifs at hr with h1 h2 h3 h4 <;>
      first
        | (injection hr with h5; rw [← h5, restoreOwned_sel]; assumption)
        | exact ExecOutcome.noConfusion hr

/-- C1 witness: over the three-row chunk `chunkW`, the constant vector
`constVecW` is broadcast to count 3 with the chunk's selection vector and
value 9 everywhere, and the two-row non-constant `shortVecW` raises the
length mismatch. -/
theorem execute_expression_reconciliation_witness :
    (∃ r, executeExpressionCore (some chunkW) constVecW 0 none = .ok r ∧
      r.count = chunkW.size ∧ r.sel_vector = chunkW.sel_vector ∧
      ∀ k, k < chunkW.size → r.GetValue k = constVecW.GetValue 0) ∧
    executeExpressionCore (some chunkW) shortVecW 0 none = .lengthMismatch :=
  ⟨(execute_expression_reconciliation chunkW constVecW 0 none).1 rfl,
   (execute_expression_reconciliation chunkW shortVecW 0 none).2.1 rfl (by decide)⟩

/-- C6: Append(txn, row_start, count, commit_id) stamps commit_id into the
slot of each of the count rows starting at row_start, in the insert info of
the row's containing block (obtained or created per spanned block, a
delete-info entry being promoted to insert info), and advances max_row by
exactly count. -/
theorem append_stamps_commit_id (vm : VersionManager) (txn : Transaction)
    (row_start count commit_id : Nat) :
    (∀ j, j < count →
      lookupIns ((vm.Append txn row_start count commit_id).2.info) (row_start + j) =
        some commit_id) ∧
    (vm.Append txn row_start count commit_id).2.max_row = vm.max_row + count := by
  constructor
  · intro j hj
    show lookupIns
      (appendRows (getInsertInfo vm.info (row_start / STANDARD_VECTOR_SIZE)).2
        (row_start / STANDARD_VECTOR_SIZE)
        (row_start - row_start / STANDARD_VECTOR_SIZE * STANDARD_VECTOR_SIZE)
        commit_id count)
      (row_start + j) = some commit_id
    have hrw : row_start + j = row_start / STANDARD_VECTOR_SIZE * STANDARD_VECTOR_SIZE +
        (row_start - row_start / STANDARD_VECTOR_SIZE * STANDARD_VECTOR_SIZE) + j := by
      simp only [STANDARD_VECTOR_SIZE]
      omega
    rw [hrw]
    exact appendRows_stamps count _ _ _ _
      (by simp only [STANDARD_VECTOR_SIZE]; omega)
      ⟨_, getInsertInfo_at vm.info _⟩ j hj
  · rfl

/-- C6 witness: appending two rows at row 1023 with commit id 7 (spanning
blocks 0 and 1) stamps both slots and advances max_row from 0 to 2. -/
theorem append_stamps_commit_id_witness :
    lookupIns ((vmEmpty.Append 0 1023 2 7).2.info) 1023 = some 7 ∧
    lookupIns ((vmEmpty.Append 0 1023 2 7).2.info) 1024 = some 7 ∧
    (vmEmpty.Append 0 1023 2 7).2.max_row = 0 + 2 :=
  ⟨(append_stamps_commit_id vmEmpty 0 1023 2 7).1 0 (by decide),
   (append_stamps_commit_id vmEmpty 0 1023 2 7).1 1 (by decide),
   (append_stamps_commit_id vmEmpty 0 1023 2 7).2⟩

/-- C7 counterexample: RevertAppend removes a delete-info entry outright,
without promoting it to an insert info — the block-0 delete info of
`vmDel0` is simply erased by RevertAppend(0, 1023) — so the claim that no
operation removes a delete-info entry without promotion is false for
RevertAppend, one of the three operations the claim ranges over. -/
theorem version_map_state_machine_cex :
    kindOf (vmDel0.info 0) = some ChunkInfoKind.del ∧
    kindOf ((vmDel0.RevertAppend 0 1023).2.info 0) = none :=
  ⟨rfl, rfl⟩

/-- C7 (amended): per-block transitions of the version map. Append leaves a
block's entry unchanged or makes it insert info (so absent to insert and
delete to insert, never insert to delete and never removal); Delete leaves
it unchanged or creates delete info where none existed; RevertAppend
leaves it unchanged or erases it. Hence an entry becomes absent only via
RevertAppend, and neither Append nor Delete removes a delete-info entry
without promoting it to insert info — but RevertAppend may erase any
entry in its range, including delete info. -/
theorem version_map_transitions (vm : VersionManager) (txn : Transaction)
    (ids : List Nat) (rs cnt cid rs2 re2 b : Nat) :
    (kindOf ((vm.Append txn rs cnt cid).2.info b) = kindOf (vm.info b) ∨
      kindOf ((vm.Append txn rs cnt cid).2.info b) = some ChunkInfoKind.ins) ∧
    (kindOf ((vm.Delete txn ids).2.1.info b) = kindOf (vm.info b) ∨
      (kindOf (vm.info b) = none ∧
        kindOf ((vm.Delete txn ids).2.1.info b) = some ChunkInfoKind.del)) ∧
    (kindOf ((vm.RevertAppend rs2 re2).2.info b) = kindOf (vm.info b) ∨
      kindOf ((vm.RevertAppend rs2 re2).2.info b) = none) := by
  refine ⟨?_, ?_, ?_⟩
  · show kindOf ((appendRows (getInsertInfo vm.info (rs / STANDARD_VECTOR_SIZE)).2
      (rs / STANDARD_VECTOR_SIZE) (rs - rs / STANDARD_VECTOR_SIZE * STANDARD_VECTOR_SIZE)
      cid cnt) b) = kindOf (vm.info b) ∨
      kindOf ((appendRows (getInsertInfo vm.info (rs / STANDARD_VECTOR_SIZE)).2
      (rs / STANDARD_VECTOR_SIZE) (rs - rs / STANDARD_VECTOR_SIZE * STANDARD_VECTOR_SIZE)
      cid cnt) b) = some ChunkInfoKind.ins
    rcases appendRows_kind cnt (getInsertInfo vm.info (rs / STANDARD_VECTOR_SIZE)).2
        (rs / STANDARD_VECTOR_SIZE) (rs - rs / STANDARD_VECTOR_SIZE * STANDARD_VECTOR_SIZE)
        cid b with h | h
    · rcases getInsertInfo_kind vm.info (rs / STANDARD_VECTOR_SIZE) b with h2 | h2
      · left
        rw [h, h2]
      · right
        rw [h, h2]
    · right
      exact h
  · show kindOf ((vm.deleteFinalState ids).manager_info b) = kindOf (vm.info b) ∨
      (kindOf (vm.info b) = none ∧
        kindOf ((vm.deleteFinalState ids).manager_info b) = some ChunkInfoKind.del)
    unfold VersionManager.deleteFinalState
    rw [flush_kind]
    exact delete_fold_kind (ids.map (fun id => id - vm.base_row)) _ b
  · rw [revertAppend_info]
    split_ifs
    · right
      rfl
    · left
      rfl

/-- C8: for a foldable expression (its handler yields the same constant
single-row vector regardless of the active chunk), EvaluateScalar returns
exactly the value obtained by executing the expression over any N-row
batch and reading any single element of the output column. -/
theorem evaluate_scalar_matches_batch (handler : Option Chunk → Vector) (v : Nat)
    (hfold : ∀ oc, (handler oc).is_const = true ∧ (handler oc).count = 1 ∧
      (handler oc).GetValue 0 = v)
    (c : Chunk) (d d2 : Nat) (ow ow2 : Option Nat) (k : Nat) (hk : k < c.size) :
    ∃ r, executeExpressionCore (some c) (handler (some c)) d ow = .ok r ∧
      EvaluateScalar handler d2 ow2 = some (r.GetValue k) := by
  obtain ⟨r, hr, hcount, hsel, hval⟩ :=
    executeCore_const c (handler (some c)) d ow (hfold (some c)).1
  refine ⟨r, hr, ?_⟩
  have hred : EvaluateScalar handler d2 ow2 =
      if (restoreOwned d2 ow2 (handler none)).count = 1
      then some ((restoreOwned d2 ow2 (handler none)).GetValue 0) else none := rfl
  rw [hred, restoreOwned_count, if_pos (hfold none).2.1, restoreOwned_getValue,
    (hfold none).2.2, hval k hk, (hfold (some c)).2.2]

/-- C8 witness: the constant-9 handler evaluated as a scalar equals element
2 of its execution over the three-row chunk `chunkW`. -/
theorem evaluate_scalar_matches_batch_witness :
    ∃ r, executeExpressionCore (some chunkW) ((fun _ => constVecW) (some chunkW)) 0 none =
        .ok r ∧
      EvaluateScalar (fun _ => constVecW) 1 none = some (r.GetValue 2) :=
  evaluate_scalar_matches_batch (fun _ => constVecW) 9 (fun _ => ⟨rfl, rfl, rfl⟩)
    chunkW 0 1 none none 2 (by decide)

/-- C5: DefaultSelect on an evaluated boolean vector returns the chunk's
row count without writing the output buffer when the result is constant
true and non-null, returns 0 when it is constant false or constant null,
and otherwise writes exactly the positions (per the batch's selection
vector and null mask, under the executor's invariant that the evaluated
vector carries the batch's selection vector and count) where the value is
true and non-null, in ascending position order for an ascending selection
vector. -/
theorem default_select_spec (c : Chunk) (inter : Vector) :
    (inter.is_const = true → inter.values 0 ≠ 0 → inter.nullmask 0 = false →
      DefaultSelect c inter = (c.size, [])) ∧
    (inter.is_const = true → (inter.values 0 = 0 ∨ inter.nullmask 0 = true) →
      DefaultSelect c inter = (0, [])) ∧
    (inter.is_const = false → inter.sel_vector = c.sel_vector → inter.count = c.size →
      (DefaultSelect c inter).2 = (execIndices c.size c.sel_vector).filter
          (fun i => decide (inter.values i ≠ 0) && !inter.nullmask i) ∧
      (DefaultSelect c inter).1 = (DefaultSelect c inter).2.length ∧
      (selAscending c.sel_vector c.size →
        List.Sorted (· < ·) (DefaultSelect c inter).2)) := by
  refine ⟨fun h1 h2 h3 => ?_, fun h1 h2 => ?_, fun h1 h2 h3 => ?_⟩
  · simp only [DefaultSelect, h1]
    rw [if_pos trivial, if_pos ⟨h2, h3⟩]
  · simp only [DefaultSelect, h1]
    rw [if_pos trivial, if_neg]
    rcases h2 with h2 | h2 <;> rintro ⟨ha, hb⟩
    · exact ha h2
    · rw [h2] at hb
      exact Bool.noConfusion hb
  · simp only [DefaultSelect, h1]
    rw [if_neg (by simp)]
    rw [h2, h3]
    refine ⟨rfl, rfl, fun hasc => ?_⟩
    exact List.Sorted.filter _ (execIndices_sorted c.sel_vector c.size hasc)

/-- C5 witness: over `chunkW` (active physical positions 0, 2, 3), the
constant-true vector selects all 3 rows without output writes, the
constant-null vector selects none, and the non-constant `boolVecW` (true
at 0 and 3, null at 3, false at 2) selects exactly position 0, sorted. -/
theorem default_select_spec_witness :
    DefaultSelect chunkW constVecW = (chunkW.size, []) ∧
    DefaultSelect chunkW nullBoolVecW = (0, []) ∧
    (DefaultSelect chunkW boolVecW).2 = (execIndices chunkW.size chunkW.sel_vector).filter
        (fun i => decide (boolVecW.values i ≠ 0) && !boolVecW.nullmask i) ∧
    List.Sorted (· < ·) (DefaultSelect chunkW boolVecW).2 :=
  ⟨(default_select_spec chunkW constVecW).1 rfl (by decide) rfl,
   (default_select_spec chunkW nullBoolVecW).2.1 rfl (Or.inr rfl),
   ((default_select_spec chunkW boolVecW).2.2 rfl rfl rfl).1,
   ((default_select_spec chunkW boolVecW).2.2 rfl rfl rfl).2.2
     ⟨by decide, by decide⟩⟩

/-- C9 (amended): GetSelVector acquires the shared lock before touching the
version map and every mutator (Delete, Append, RevertAppend) acquires the
exclusive lock, but Fetch reads the version map without acquiring any
lock. -/
theorem lock_discipline (vm : VersionManager) (txn : Transaction) (index : Nat)
    (sel : Nat → Nat) (max_count : Nat)
    (gs : ChunkInfo → Transaction → (Nat → Nat) → Nat → Nat × (Nat → Nat))
    (row : Nat) (cf : ChunkInfo → Transaction → Nat → Bool) (ids : List Nat)
    (rs cnt cid rs2 re2 : Nat) :
    (vm.GetSelVector txn index sel max_count gs).1 = [LockMode.shared] ∧
    (vm.Fetch txn row cf).1 = [] ∧
    (vm.Delete txn ids).1 = [LockMode.exclusive] ∧
    (vm.Append txn rs cnt cid).1 = [LockMode.exclusive] ∧
    (vm.RevertAppend rs2 re2).1 = [LockMode.exclusive] :=
  ⟨rfl, rfl, rfl, rfl, rfl⟩

end duckdb
